import Mathlib

/-!
Shallow embedding of the nnkit reverse-mode autodiff engine
(`nnkit/__init__.py`, `arithmetic.py`, `activation.py`, `loss.py`,
`normalization.py`, `regularization.py`, `optimization.py`, `training.py`)
and proofs about its claims.

Numpy float32 tensors are modelled as rational matrices `Mat := List (List ℚ)`:
the claims under study are about the algebraic/structural behaviour of the
code, not about rounding.  Where IEEE non-finiteness matters (cross-entropy's
`np.nan_to_num(np.log p)` guard) an explicit extended value type is used.
Transcendental functions (`np.exp`, `np.sqrt`, `np.log`) are taken as
function parameters where their numeric value does not decide the claim.
-/

/-- Dense 2-d tensor: a list of rows of rationals (numpy `ndarray`, `ndmin=2`). -/
abbrev Mat : Type := List (List ℚ)

namespace Mat

/-- Elementwise combination of two same-shaped tensors (numpy elementwise ops). -/
def map2 (f : ℚ → ℚ → ℚ) (a b : Mat) : Mat :=
  List.zipWith (fun ra rb => List.zipWith f ra rb) a b

/-- Elementwise map (numpy unary ufunc). -/
def emap (f : ℚ → ℚ) (a : Mat) : Mat :=
  a.map (fun r => r.map f)

/-- Elementwise addition, `a + b` on numpy arrays of equal shape. -/
def add (a b : Mat) : Mat := map2 (· + ·) a b

/-- Elementwise subtraction `a - b`. -/
def sub (a b : Mat) : Mat := map2 (· - ·) a b

/-- Elementwise (Hadamard) product `a * b`. -/
def hmul (a b : Mat) : Mat := map2 (· * ·) a b

/-- Multiplication by a scalar, `c * a`. -/
def smul (c : ℚ) (a : Mat) : Mat := emap (fun x => c * x) a

/-- `np.zeros_like(a)`. -/
def zerosLike (a : Mat) : Mat := a.map (fun r => r.map (fun _ => (0 : ℚ)))

/-- `np.ones_like(a)`. -/
def onesLike (a : Mat) : Mat := a.map (fun r => r.map (fun _ => (1 : ℚ)))

/-- Dot product of two rows. -/
def dot (r c : List ℚ) : ℚ := (List.zipWith (· * ·) r c).sum

/-- Number of columns (length of the first row). -/
def cols (a : Mat) : ℕ := (a.headD []).length

/-- Matrix transpose `a.T` (for rectangular `a`). -/
def tr (a : Mat) : Mat :=
  (List.range (cols a)).map (fun j => a.map (fun r => r.getD j 0))

/-- Matrix product `a @ b`. -/
def matmul (a b : Mat) : Mat :=
  a.map (fun r => (tr b).map (fun c => dot r c))

/-- Column sums, `np.sum(a, axis=0)`, as a single row. -/
def sumAxis0 (a : Mat) : List ℚ :=
  (List.range (cols a)).map (fun j => (a.map (fun r => r.getD j 0)).sum)

/-- Column means, `np.mean(a, axis=0)`, as a single row. -/
def meanAxis0 (a : Mat) : List ℚ :=
  (sumAxis0 a).map (fun s => s / (a.length : ℚ))

/-- Sum over each row then mean over rows: `np.mean(np.sum(a, axis=1))`. -/
def meanOfRowSums (a : Mat) : ℚ :=
  ((a.map (fun r => r.sum)).sum) / (a.length : ℚ)

/-- Total sum of all entries. -/
def total (a : Mat) : ℚ := (a.map (fun r => r.sum)).sum

end Mat

/-!
## `NetVar` (nnkit/__init__.py lines 31-95)

`self.g, self._data = None, None`; the `data` setter coerces to an
`ndmin=2` array (here: the value is already a `Mat`) and always calls
`reset()`; `reset()` zeroes the gradient to the shape of the value.
-/

/-- A variable node: value (`_data`) and gradient (`g`), each possibly unset. -/
structure NetVar where
  dta : Option Mat
  g : Option Mat
  deriving DecidableEq

namespace NetVar

/-- `NetVar.reset`: `g = None` if the value is unset, else `np.zeros_like(_data)`. -/
def reset (v : NetVar) : NetVar :=
  match v.dta with
  | none => { v with g := none }
  | some m => { v with g := some (Mat.zerosLike m) }

/-- The `data` property setter: store the (coerced) value, then `reset()`. -/
def setData (v : NetVar) (d : Option Mat) : NetVar :=
  reset { v with dta := d }

/-- `NetVar.__init__(data)`: start with `g = None, _data = None`; if `data`
is not `None`, run the `data` setter. -/
def mk0 (d : Option Mat) : NetVar :=
  match d with
  | none => ⟨none, none⟩
  | some m => setData ⟨none, none⟩ (some m)

end NetVar

/-!
## LReLU (nnkit/activation.py lines 49-69)

Forward `np.maximum(s * x.data, x.data)`; backward
`x.g += np.where(x.data > 0, self.g, s)` — note the third argument is the
raw slope `s`, not `s * self.g`.
-/

namespace LReLU

/-- Forward value of `LReLU`: `np.maximum(s * x.data, x.data)`. -/
def forward (s : ℚ) (x : Mat) : Mat :=
  Mat.emap (fun xv => max (s * xv) xv) x

/-- The tensor `np.where(x.data > 0, g, s)` that `LReLU._back` adds into
`x.g` (broadcasting the scalar `s` where the condition is false). -/
def backContrib (s : ℚ) (x g : Mat) : Mat :=
  Mat.map2 (fun xv gv => if 0 < xv then gv else s) x g

end LReLU

/-!
## Multiply (nnkit/arithmetic.py lines 30-49) and `NetOp.back` seeding
(nnkit/__init__.py line 128: `self.g = np.ones_like(self.data, dtype)`).
-/

namespace Multiply

/-- Forward value of `Multiply`: `x.data @ w.data`. -/
def forward (x w : Mat) : Mat := Mat.matmul x w

/-- `Multiply._back`: given upstream gradient `g` and current parent
gradients `xg, wg`, return the updated pair
`(x.g + g @ w.T, w.g + x.T @ g)`. -/
def backStep (g x w xg wg : Mat) : Mat × Mat :=
  (Mat.add xg (Mat.matmul g (Mat.tr w)), Mat.add wg (Mat.matmul (Mat.tr x) g))

end Multiply

/-- Seed used by `NetOp.back`: the all-ones tensor shaped like this node's value. -/
def NetOp.seed (data : Mat) : Mat := Mat.onesLike data

/-- `np.sign` on a rational scalar. -/
def sgn (v : ℚ) : ℚ := if 0 < v then 1 else if v < 0 then -1 else 0

/-!
## Loss operators (nnkit/loss.py)

Each loss caches data at construction (`__init__`) and reads the rest from
the current node state at backward time (`_back`).  The upstream gradient
`self.g` of a loss node is the `1×1` seed tensor; it enters the backward
formulas as a scalar factor `g`.  `_back` computes one tensor `dx` and
performs `p.g += dx; t.g -= dx` (for `CELoss`, two separate tensors).
-/

namespace L1Loss

/-- Forward value `np.mean(np.sum(np.abs(p - t), axis=1))`. -/
def forward (p t : Mat) : ℚ :=
  Mat.meanOfRowSums (Mat.emap (fun v => |v|) (Mat.sub p t))

/-- `self.cache = len(t.data)`: the batch size captured at construction. -/
def cacheOf (p t : Mat) : ℕ := t.length

/-- `L1Loss._back`: `dx = self.g * np.sign(p.data - t.data) / b` with
`b = self.cache`; `p.data`, `t.data` are read from the current state. -/
def back (cache : ℕ) (pCur tCur : Mat) (g : ℚ) : Mat :=
  Mat.emap (fun v => g * sgn v / (cache : ℚ)) (Mat.sub pCur tCur)

end L1Loss

namespace L2Loss

/-- Forward value `.5 * np.mean(np.sum((p - t)**2, axis=1))`. -/
def forward (p t : Mat) : ℚ :=
  (1/2) * Mat.meanOfRowSums (Mat.emap (fun v => v ^ 2) (Mat.sub p t))

/-- `self.cache = len(t.data)`: the batch size captured at construction. -/
def cacheOf (p t : Mat) : ℕ := t.length

/-- `L2Loss._back`: `dx = self.g * (p.data - t.data) / b` with `b = self.cache`. -/
def back (cache : ℕ) (pCur tCur : Mat) (g : ℚ) : Mat :=
  Mat.emap (fun v => g * v / (cache : ℚ)) (Mat.sub pCur tCur)

end L2Loss

namespace CELoss

/-- `self.cache = b` where `b = len(t.data)` was read at construction. -/
def cacheOf (p t : Mat) : ℕ := t.length

/-- The `p.g` contribution of `CELoss._back`:
`self.g * (p.data - t.data) / b` with `b = self.cache`. -/
def backP (cache : ℕ) (pCur tCur : Mat) (g : ℚ) : Mat :=
  Mat.emap (fun v => g * v / (cache : ℚ)) (Mat.sub pCur tCur)

end CELoss

namespace HuberLoss

/-- Forward value: `np.mean(np.sum(np.where(abs <= d, .5*diff^2, d*abs - .5*d^2), axis=1))`. -/
def forward (p t : Mat) (d : ℚ) : ℚ :=
  Mat.meanOfRowSums
    (Mat.emap (fun v => if |v| ≤ d then (1/2) * v ^ 2 else d * |v| - (1/2) * d ^ 2)
      (Mat.sub p t))

/-- `self.cache = diff, abs, d` captured at construction
(`diff = p.data - t.data`, `abs = np.abs(diff)`). -/
def cacheOf (p t : Mat) (d : ℚ) : Mat × Mat × ℚ :=
  (Mat.sub p t, Mat.emap (fun v => |v|) (Mat.sub p t), d)

/-- `HuberLoss._back`: `b = len(t.data)` is recomputed from the CURRENT
target value; `dx = np.where(abs <= d, diff, d * np.sign(diff)) / b` from
the cached `diff`, `abs`, `d`.  (`self.g` does not appear in the source
expression.) -/
def back (cache : Mat × Mat × ℚ) (tCur : Mat) : Mat :=
  Mat.emap (fun v => v / (tCur.length : ℚ))
    (Mat.map2 (fun dv av => if av ≤ cache.2.2 then dv else cache.2.2 * sgn dv)
      cache.1 cache.2.1)

end HuberLoss

/-!
## BatchNorm construction (nnkit/normalization.py lines 42-72)

`np.sqrt` is taken as a function parameter `sqrtF`; the epsilon is `1e-8`.
Row-vector statistics (`np.mean(..., axis=0)`) broadcast over the rows of
`x`; `gamma`, `beta`, `avgVar`, `avgMean` are `1×n` tensors (their values
pass through the `ndmin=2` setter), whose single row is broadcast likewise.
-/

/-- Effects of `BatchNorm.__init__`: the forward value, the (possibly
updated) running-statistics node values, and the cache. -/
structure BNResult where
  value : Mat
  newAvgVar : Mat
  newAvgMean : Mat
  cache : List ℚ × Mat × Mat

namespace BatchNorm

/-- The numpy epsilon `1e-8`. -/
def eps : ℚ := 1 / 100000000

/-- `0.9 * old + 0.1 * stat`: the exponential-decay blend of a running
statistic (a `1×n` tensor) with a freshly computed batch statistic row. -/
def runningUpdate (old : Mat) (stat : List ℚ) : Mat :=
  Mat.add (Mat.smul (9/10) old) (Mat.smul (1/10) [stat])

/-- `BatchNorm.__init__`: compute batch (or running) mean and variance,
update the running statistics by exponential decay when `useAvg` is false,
normalize, scale by `gamma` and shift by `beta`. -/
def construct (sqrtF : ℚ → ℚ) (x gamma beta avgVar avgMean : Mat)
    (useAvg : Bool) : BNResult :=
  let meanRow := if useAvg then avgMean.headD [] else Mat.meanAxis0 x
  let newAvgMean :=
    if useAvg then avgMean else runningUpdate avgMean (Mat.meanAxis0 x)
  let xCenter := x.map (fun row => List.zipWith (· - ·) row meanRow)
  let varRow :=
    if useAvg then avgVar.headD []
    else Mat.meanAxis0 (Mat.emap (fun v => v ^ 2) xCenter)
  let newAvgVar :=
    if useAvg then avgVar
    else runningUpdate avgVar (Mat.meanAxis0 (Mat.emap (fun v => v ^ 2) xCenter))
  let xNorm := xCenter.map
    (fun row => List.zipWith (fun c v => c / sqrtF (v + eps)) row varRow)
  let value := xNorm.map
    (fun row => List.zipWith (fun z p => z.1 * p + z.2) (List.zip row (beta.headD []))
      (gamma.headD []))
  ⟨value, newAvgVar, newAvgMean, (varRow, xCenter, xNorm)⟩

end BatchNorm

/-!
## IEEE-style extended values (for C7)

The cross-entropy backward reads `np.nan_to_num(np.log(p.data))`.  In
float32 arithmetic `np.log` returns `-inf` at `0` and `nan` on negative
inputs; `np.nan_to_num` maps `nan` to `0` and `±inf` to the largest-magnitude
finite float.  `FloatV` models a float32 value as either a finite rational
or one of the non-finite values; arithmetic whose exact result reaches the
float32 overflow threshold saturates to `±inf` (rounding of finite results
is not modelled — only finiteness is at stake).  The logarithm is a
parameter `L : ℚ → FloatV` (its finite values are irrational; any float32
value has magnitude at most `maxFloat`).
-/

inductive FloatV where
  | fin (q : ℚ)
  | posInf
  | negInf
  | nanV
  deriving DecidableEq

namespace FloatV

/-- Whether the value is finite. -/
def isFin : FloatV → Bool
  | fin _ => true
  | _ => false

/-- Largest finite float32, `np.finfo(np.float32).max = 2^128 - 2^104`. -/
def maxFloat : ℚ := 2 ^ 128 - 2 ^ 104

/-- Smallest magnitude whose float32 rounding (round-to-nearest-even)
overflows to infinity: `2^128 - 2^103`. -/
def ovfThreshold : ℚ := 2 ^ 128 - 2 ^ 103

/-- `np.nan_to_num`: `nan ↦ 0`, `inf ↦ maxFloat`, `-inf ↦ -maxFloat`,
finite values unchanged. -/
def nanToNum : FloatV → ℚ
  | fin q => q
  | posInf => maxFloat
  | negInf => -maxFloat
  | nanV => 0

/-- IEEE-style negation. -/
def neg : FloatV → FloatV
  | fin q => fin (-q)
  | posInf => negInf
  | negInf => posInf
  | nanV => nanV

/-- IEEE-style multiplication: a finite product saturates to `±inf` at the
float32 overflow threshold; `nan` exactly where IEEE yields `nan`
(`0 * inf`). -/
def mul : FloatV → FloatV → FloatV
  | fin q, fin r =>
    if ovfThreshold ≤ |q * r| then (if 0 < q * r then posInf else negInf)
    else fin (q * r)
  | fin q, posInf => if q = 0 then nanV else if 0 < q then posInf else negInf
  | fin q, negInf => if q = 0 then nanV else if 0 < q then negInf else posInf
  | posInf, fin r => if r = 0 then nanV else if 0 < r then posInf else negInf
  | negInf, fin r => if r = 0 then nanV else if 0 < r then negInf else posInf
  | posInf, posInf => posInf
  | posInf, negInf => negInf
  | negInf, posInf => negInf
  | negInf, negInf => posInf
  | _, _ => nanV

/-- IEEE-style division by a finite value: division by `0` yields `±inf`
or `nan`, and a finite quotient saturates to `±inf` at the float32
overflow threshold. -/
def div : FloatV → FloatV → FloatV
  | fin q, fin r =>
    if r = 0 then (if q = 0 then nanV else if 0 < q then posInf else negInf)
    else if ovfThreshold ≤ |q / r| then (if 0 < q / r then posInf else negInf)
    else fin (q / r)
  | posInf, fin r => if r < 0 then negInf else posInf
  | negInf, fin r => if r < 0 then posInf else negInf
  | _, _ => nanV

end FloatV

namespace CELoss

/-- The `t.g` contribution of `CELoss._back`:
`self.g * -np.nan_to_num(np.log(p.data)) / b` with `b = self.cache`,
computed entrywise in float32 extended values.  `L` models `np.log`. -/
def backT (L : ℚ → FloatV) (cache : ℕ) (pCur : Mat) (g : FloatV) :
    List (List FloatV) :=
  pCur.map (fun row => row.map (fun pv =>
    FloatV.div (FloatV.mul g (FloatV.neg (FloatV.fin (FloatV.nanToNum (L pv)))))
      (FloatV.fin (cache : ℚ))))

end CELoss

/-!
## Optimizers (nnkit/optimization.py and nnkit/training.py)

Both modules define `GD.step` and `Adam.step`.  The loop body for one
parameter `p` with momentum buffer `m` (and squared-gradient buffer `r`
for Adam) is modelled below.  The augmented assignment `p.data -= ...`
reads the `data` property, subtracts in place, and then invokes the
`data` property SETTER, which calls `reset()` — so it zeroes `p.g`.
`training.py` additionally calls `p.reset()` explicitly afterwards.
`np.sqrt` is a parameter `sqrtF`.
-/

namespace Optimization

/-- Loop body of `GD.step` in `optimization.py` for one parameter:
`m = momentum*m + (1-momentum)*p.g; p.data -= learnRate*m`.  Returns the
updated node and momentum buffer. -/
def GD.stepOne (lr mom : ℚ) (pd pg m : Mat) : NetVar × Mat :=
  let m' := Mat.add (Mat.smul mom m) (Mat.smul (1 - mom) pg)
  (NetVar.setData ⟨some pd, some pg⟩ (some (Mat.sub pd (Mat.smul lr m'))), m')

/-- Loop body of `Adam.step` in `optimization.py` for one parameter:
adds `r = rms*r + (1-rms)*p.g**2` and divides the momentum by
`sqrt(r + 1e-8)` elementwise. -/
def Adam.stepOne (sqrtF : ℚ → ℚ) (lr mom rms : ℚ) (pd pg m r : Mat) :
    NetVar × Mat × Mat :=
  let m' := Mat.add (Mat.smul mom m) (Mat.smul (1 - mom) pg)
  let r' := Mat.add (Mat.smul rms r) (Mat.smul (1 - rms) (Mat.emap (fun v => v ^ 2) pg))
  let upd := Mat.map2 (fun mv rv => mv / sqrtF (rv + 1 / 100000000)) m' r'
  (NetVar.setData ⟨some pd, some pg⟩ (some (Mat.sub pd (Mat.smul lr upd))), m', r')

end Optimization

namespace Training

/-- Loop body of `GD.step` in `training.py`: identical update followed by
an explicit `p.reset()`. -/
def GD.stepOne (lr mom : ℚ) (pd pg m : Mat) : NetVar × Mat :=
  let m' := Mat.add (Mat.smul mom m) (Mat.smul (1 - mom) pg)
  ((NetVar.setData ⟨some pd, some pg⟩ (some (Mat.sub pd (Mat.smul lr m')))).reset, m')

/-- Loop body of `Adam.step` in `training.py`: identical update followed by
an explicit `p.reset()`. -/
def Adam.stepOne (sqrtF : ℚ → ℚ) (lr mom rms : ℚ) (pd pg m r : Mat) :
    NetVar × Mat × Mat :=
  let m' := Mat.add (Mat.smul mom m) (Mat.smul (1 - mom) pg)
  let r' := Mat.add (Mat.smul rms r) (Mat.smul (1 - rms) (Mat.emap (fun v => v ^ 2) pg))
  let upd := Mat.map2 (fun mv rv => mv / sqrtF (rv + 1 / 100000000)) m' r'
  ((NetVar.setData ⟨some pd, some pg⟩ (some (Mat.sub pd (Mat.smul lr upd)))).reset,
    m', r')

end Training

/-!
## The backward traversal (nnkit/__init__.py lines 125-146)

`NetOp.back` seeds `self.g = np.ones_like(self.data)` and calls
`self._back(*self.parents)`.  Every operator's `_back` first ADDS its local
contributions into each parent's gradient (a function of `self.g` and of
data fixed at construction) and then calls the base implementation, which
recurses into each parent that is itself an operator, in parent order.

The graph is modelled by the Python object-reference structure: a node is a
variable leaf or an operator with an id (object identity), a local-backward
function `f` mapping this node's current gradient to the list of
contributions for its parents (positionally), and the parent references.
A shared node appears as several identically-shaped subtrees with the same
id.  Gradient storage is a state `s : ℕ → M` keyed by id; the gradient
payload type `M` (tensors of the node's shape) is any additive commutative
monoid — the traversal logic of `NetOp._back` is payload-independent.
-/

inductive GNode (M : Type) where
  | var (id : ℕ)
  | op (id : ℕ) (f : M → List M) (ps : List (GNode M))

namespace GNode

/-- The node's identity (`id(obj)` in Python). -/
def nid {M : Type} : GNode M → ℕ
  | .var i => i
  | .op i _ _ => i

/-- Whether the node is an operator (`isinstance(p, NetOp)`). -/
def isOp {M : Type} : GNode M → Bool
  | .var _ => false
  | .op _ _ _ => true

end GNode

section Traversal

variable {M : Type} [AddCommMonoid M]

/-- Sequentially perform `p.g += c` for each parent/contribution pair
(the subclass body of `_back` before `super()._back()`). -/
def applyContribs : List (GNode M) → List M → (ℕ → M) → (ℕ → M)
  | p :: ps, c :: cs, s =>
    applyContribs ps cs (Function.update s p.nid (s p.nid + c))
  | _, _, s => s

mutual

/-- One `_back` invocation on a node: operators add their contributions to
all parents, then recurse into operator parents in order; variable leaves
do nothing.  Returns the final gradient state and the list of node ids on
which `_back` ran, in invocation order. -/
def backVisit : GNode M → (ℕ → M) → ((ℕ → M) × List ℕ)
  | .var _, s => (s, [])
  | .op i f ps, s =>
    let s1 := applyContribs ps (f (s i)) s
    let r := backList ps s1
    (r.1, i :: r.2)

/-- The loop `for p in [p for p in self.parents if isinstance(p, NetOp)]:
p._back(*p.parents)` (a variable leaf contributes nothing). -/
def backList : List (GNode M) → (ℕ → M) → ((ℕ → M) × List ℕ)
  | [], s => (s, [])
  | p :: ps, s =>
    let r1 := backVisit p s
    let r2 := backList ps r1.1
    (r2.1, r1.2 ++ r2.2)

end

/-- `NetOp.back`: seed this node's gradient with the all-ones tensor of its
shape (`one`) and run `_back`. -/
def backOp (t : GNode M) (one : M) (s : ℕ → M) : (ℕ → M) × List ℕ :=
  backVisit t (Function.update s t.nid one)

mutual

/-- Ids of the operator nodes of the graph, in `_back` preorder. -/
def opIds : GNode M → List ℕ
  | .var _ => []
  | .op i _ ps => i :: opIdsL ps

def opIdsL : List (GNode M) → List ℕ
  | [] => []
  | p :: ps => opIds p ++ opIdsL ps

end

mutual

/-- Ids of the variable leaves of the graph (with multiplicity). -/
def varIds : GNode M → List ℕ
  | .var i => [i]
  | .op _ _ ps => varIdsL ps

def varIdsL : List (GNode M) → List ℕ
  | [] => []
  | p :: ps => varIds p ++ varIdsL ps

end

mutual

/-- Ids receiving a gradient contribution during the traversal: every id
occurring in a parent position somewhere in the graph. -/
def parentIds : GNode M → List ℕ
  | .var _ => []
  | .op _ _ ps => ps.map GNode.nid ++ parentIdsL ps

def parentIdsL : List (GNode M) → List ℕ
  | [] => []
  | p :: ps => parentIds p ++ parentIdsL ps

end

mutual

/-- Specification of the gradients a backward pass delivers: the total
contribution the subtree sends to id `j` when its root receives upstream
gradient `g` — the sum, over each parent edge, of the locally computed
contribution, plus the contributions of the recursive passes, each started
from the contribution its root receives along its single incoming edge. -/
def specContrib : GNode M → M → ℕ → M
  | .var _, _, _ => 0
  | .op _ f ps, g, j => specContribL ps (f g) j

def specContribL : List (GNode M) → List M → ℕ → M
  | p :: ps, c :: cs, j =>
    ((if p.nid = j then c else 0) + specContrib p c j) + specContribL ps cs j
  | _, _, _ => 0

end

/-- The direct contributions delivered to id `j` by one `applyContribs`
round (positional sum over the parent/contribution pairs). -/
def dsum : List (GNode M) → List M → ℕ → M
  | p :: ps, c :: cs, j => (if p.nid = j then c else 0) + dsum ps cs j
  | _, _, _ => 0

/-- Sum of the spec contributions of a list of sibling subtrees, each fed
the gradient its root holds in state `s`. -/
def rootSum (ps : List (GNode M)) (s : ℕ → M) (j : ℕ) : M :=
  (ps.map (fun p => specContrib p (s p.nid) j)).sum

mutual

/-- Every operator's local backward produces exactly one contribution per
parent (true of every operator in the library). -/
def ArityOk : GNode M → Prop
  | .var _ => True
  | .op _ f ps => (∀ g, (f g).length = ps.length) ∧ ArityOkL ps

def ArityOkL : List (GNode M) → Prop
  | [] => True
  | p :: ps => ArityOk p ∧ ArityOkL ps

end

end Traversal

/-!
## FFN (nnkit/__init__.py lines 149-218)

`FFN.__init__` sets the instance attributes `topology` and `layers`; the
class body defines `vars` (a property), `__call__`, `back` and `reset` —
and nothing else ever assigns `self.params`.  `FFN.reset` runs
`for p in self.params: p.reset()`: the attribute lookup of `params` is the
first thing evaluated and raises `AttributeError`, so the loop body (the
gradient resets) is never reached.  `FFN.back(reset)` calls `self.reset()`
first when `reset` is true, and then `self.layers[-1].back()`.
-/

namespace FFN

/-- The attributes an `FFN` instance resolves: instance attributes from
`__init__` plus the methods/properties of the class body. -/
def memberNames : List String := ["topology", "layers", "vars", "back", "reset"]

/-- Python attribute lookup on an `FFN` instance. -/
def lookupAttr (name : String) : Option Unit :=
  if name ∈ memberNames then some () else none

/-- `FFN.reset` acting on the gradient state: look up `self.params`, then
(if that succeeded) reset each parameter's gradient.  The lookup fails, so
the state is never touched. -/
def resetRun {M : Type} (s : ℕ → M) : Except String (ℕ → M) :=
  match lookupAttr "params" with
  | none => .error "AttributeError: params"
  | some _ => .ok s

/-- `FFN.back(reset)`: optionally `self.reset()`, then
`self.layers[-1].back()` on the last constructed layer. -/
def backRun {M : Type} [AddCommMonoid M] (one : M) (rst : Bool)
    (layers : List (GNode M)) (s : ℕ → M) :
    Except String ((ℕ → M) × List ℕ) :=
  let go := fun (s' : ℕ → M) =>
    match layers.getLast? with
    | none => Except.error "IndexError"
    | some t => Except.ok (backOp t one s')
  if rst then (resetRun s).bind go else go s

end FFN

/-!
## Operator construction as a state transformer (for C10)

Nodes live in a store `ℕ → NetVar` keyed by object identity.  Constructing
an operator reads its parents' values, computes the forward value, performs
any side effects (`BatchNorm` assigns the running-statistics nodes' `data`,
which also resets their gradients), and allocates the new node at a fresh
id via `NetVar.__init__` (gradient zeroed by the `data` setter).
`np.exp`, `np.log`, `np.sqrt` are parameters; the Dropout mask (drawn by
`np.random.rand` in the source) is an explicit argument.
-/

/-- `x.data + b.data` with numpy broadcasting of a `1×n` bias over rows. -/
def Add.forward (x b : Mat) : Mat :=
  if b.length = 1 then x.map (fun row => List.zipWith (· + ·) row (b.headD []))
  else Mat.add x b

/-- `np.maximum(0, x.data)`. -/
def ReLU.forward (x : Mat) : Mat := Mat.emap (fun v => max 0 v) x

/-- `1. / (1. + np.exp(-x.data))`. -/
def Sigmoid.forward (expF : ℚ → ℚ) (x : Mat) : Mat :=
  Mat.emap (fun v => 1 / (1 + expF (-v))) x

/-- `(np.exp(x) - np.exp(-x)) / (np.exp(x) + np.exp(-x))`. -/
def Tanh.forward (expF : ℚ → ℚ) (x : Mat) : Mat :=
  Mat.emap (fun v => (expF v - expF (-v)) / (expF v + expF (-v))) x

/-- Row-wise shifted softmax: `ex = np.exp(x - rowmax); ex / rowsum(ex)`. -/
def SoftMax.forward (expF : ℚ → ℚ) (x : Mat) : Mat :=
  x.map (fun row =>
    let mx := row.foldl max (row.headD 0)
    let ex := row.map (fun v => expF (v - mx))
    ex.map (fun v => v / ex.sum))

/-- `-np.mean(np.sum(t * np.log(p), axis=1))` (here `logF` models `np.log`
as a rational-valued stand-in; the finiteness analysis is in `CELoss.backT`). -/
def CELoss.forward (logF : ℚ → ℚ) (p t : Mat) : ℚ :=
  -Mat.meanOfRowSums (Mat.map2 (fun tv pv => tv * logF pv) t p)

/-- `l.data + r/(2b) * sum of squared Frobenius norms`, `b = len(t.data)`. -/
def L2Reg.forward (l : Mat) (params : List Mat) (r : ℚ) (t : Mat) : Mat :=
  let frob := (params.map (fun p => Mat.total (Mat.emap (fun v => v ^ 2) p))).sum
  Mat.emap (fun v => v + r / (2 * (t.length : ℚ)) * frob) l

/-- `x.data * mask / k` with a 0/1 mask. -/
def Dropout.forward (x mask : Mat) (k : ℚ) : Mat :=
  Mat.map2 (fun xv mv => xv * mv / k) x mask

/-- A construction request: one operator of the library applied to parent
node ids (plus non-node extra arguments). -/
inductive OpCtor where
  | multiply (x w : ℕ)
  | add (x b : ℕ)
  | relu (x : ℕ)
  | lrelu (x : ℕ) (s : ℚ)
  | sigmoid (x : ℕ)
  | tanh (x : ℕ)
  | softmax (x : ℕ)
  | batchNorm (x gamma beta avgVar avgMean : ℕ) (useAvg : Bool)
  | l2reg (l : ℕ) (params : List ℕ) (r : ℚ) (t : ℕ)
  | dropout (x : ℕ) (mask : Mat) (k : ℚ)
  | l1loss (p t : ℕ)
  | l2loss (p t : ℕ)
  | celoss (p t : ℕ)
  | huberLoss (p t : ℕ) (d : ℚ)

namespace OpCtor

/-- The ids passed to `NetOp.__init__` as parents (note: `BatchNorm`'s
running-statistics nodes and `L2Reg`'s target are NOT parents). -/
def parentsOf : OpCtor → List ℕ
  | .multiply x w => [x, w]
  | .add x b => [x, b]
  | .relu x => [x]
  | .lrelu x _ => [x]
  | .sigmoid x => [x]
  | .tanh x => [x]
  | .softmax x => [x]
  | .batchNorm x gamma beta _ _ _ => [x, gamma, beta]
  | .l2reg l params _ _ => l :: params
  | .dropout x _ _ => [x]
  | .l1loss p t => [p, t]
  | .l2loss p t => [p, t]
  | .celoss p t => [p, t]
  | .huberLoss p t _ => [p, t]

/-- The ids of nodes the constructor mutates besides the new node:
`BatchNorm` with `useAvg` false assigns `avgMean.data` and `avgVar.data`. -/
def mutatedOf : OpCtor → List ℕ
  | .batchNorm _ _ _ avgVar avgMean useAvg =>
    if useAvg then [] else [avgVar, avgMean]
  | _ => []

/-- Read a node's value from the store (`.data`; the claims are about
constructions whose parents hold values). -/
def getData (st : ℕ → NetVar) (i : ℕ) : Mat := (st i).dta.getD []

/-- The forward value of the constructed operator, from the parents'
current values. -/
def forwardValue (expF logF sqrtF : ℚ → ℚ) (c : OpCtor) (st : ℕ → NetVar) : Mat :=
  match c with
  | .multiply x w => Multiply.forward (getData st x) (getData st w)
  | .add x b => Add.forward (getData st x) (getData st b)
  | .relu x => ReLU.forward (getData st x)
  | .lrelu x s => LReLU.forward s (getData st x)
  | .sigmoid x => Sigmoid.forward expF (getData st x)
  | .tanh x => Tanh.forward expF (getData st x)
  | .softmax x => SoftMax.forward expF (getData st x)
  | .batchNorm x gamma beta avgVar avgMean useAvg =>
    (BatchNorm.construct sqrtF (getData st x) (getData st gamma)
      (getData st beta) (getData st avgVar) (getData st avgMean) useAvg).value
  | .l2reg l params r t =>
    L2Reg.forward (getData st l) (params.map (getData st)) r (getData st t)
  | .dropout x mask k => Dropout.forward (getData st x) mask k
  | .l1loss p t => [[L1Loss.forward (getData st p) (getData st t)]]
  | .l2loss p t => [[L2Loss.forward (getData st p) (getData st t)]]
  | .celoss p t => [[CELoss.forward logF (getData st p) (getData st t)]]
  | .huberLoss p t d => [[HuberLoss.forward (getData st p) (getData st t) d]]

/-- Run the constructor: compute the forward value from the parents,
perform `BatchNorm`'s running-statistics assignments (each via the `data`
setter), and allocate the new node at `newId` via `NetVar.__init__`. -/
def construct (expF logF sqrtF : ℚ → ℚ) (c : OpCtor) (st : ℕ → NetVar)
    (newId : ℕ) : ℕ → NetVar :=
  let v := forwardValue expF logF sqrtF c st
  let st1 : ℕ → NetVar :=
    match c with
    | .batchNorm x gamma beta avgVar avgMean useAvg =>
      if useAvg then st
      else
        let res := BatchNorm.construct sqrtF (getData st x) (getData st gamma)
          (getData st beta) (getData st avgVar) (getData st avgMean) useAvg
        Function.update
          (Function.update st avgMean ((st avgMean).setData (some res.newAvgMean)))
          avgVar ((st avgVar).setData (some res.newAvgVar))
    | _ => st
  Function.update st1 newId (NetVar.mk0 (some v))

end OpCtor

/-!
Concrete graphs over 1×1 tensors (gradient payload `ℚ`).
`reluNode = ReLU(x)` over the leaf `x` (id 0): its backward contribution at
a positive input is `g`.  `addShared = Add(reluNode, reluNode)` passes the
SAME operator node twice as a parent: its contributions for 1×1 tensors are
`(g, columnwise-sum g) = (g, g)`.  `twoConsumers = Add(reluNode, x)` makes
the variable leaf `x` a parent of two distinct operators.
-/

def reluNode : GNode ℚ := .op 1 (fun g => [g]) [.var 0]

def addShared : GNode ℚ := .op 2 (fun g => [g, g]) [reluNode, reluNode]

def twoConsumers : GNode ℚ := .op 2 (fun g => [g, g]) [reluNode, .var 0]

/-! ## Claims C2, C4, C5 -/

/-- C2: the spec claims `LReLU._back` adds `g` where `x > 0` and `s·g`
elsewhere.  The code (`activation.py` line 68) adds the raw slope `s`
where `x ≤ 0`: at `x = [[-1]]`, upstream `g = [[2]]`, `s = 1/2` it adds
`[[1/2]]`, while `s·g` would be `[[1]]`. -/
theorem C2_lrelu_back_adds_raw_slope :
    LReLU.backContrib (1/2) [[-1]] [[2]] = [[(1/2 : ℚ)]] ∧
    LReLU.backContrib (1/2) [[-1]] [[2]] ≠ [[(1 : ℚ)]] := by
  constructor
  · norm_num [LReLU.backContrib, Mat.map2]
  · norm_num [LReLU.backContrib, Mat.map2]

/-- C4: with parents `x = [[1,2]]` and `w = [[1],[1]]`, `Multiply` has
forward value `[[3]]`; `back()` seeds this node's gradient with ones and
the local backward step yields `x.g = [[1,1]]` and `w.g = [[1],[2]]`. -/
theorem C4_multiply_scenario :
    Multiply.forward [[1, 2]] [[1], [1]] = [[(3 : ℚ)]] ∧
    Multiply.backStep (NetOp.seed (Multiply.forward [[1, 2]] [[1], [1]]))
        [[1, 2]] [[1], [1]]
        (Mat.zerosLike [[1, 2]]) (Mat.zerosLike [[1], [1]])
      = ([[1, 1]], [[1], [2]]) := by
  constructor
  · norm_num [Multiply.forward, Mat.matmul, Mat.tr, Mat.dot, Mat.cols,
      List.range_succ]
  · norm_num [Multiply.forward, Multiply.backStep, NetOp.seed, Mat.matmul,
      Mat.tr, Mat.dot, Mat.cols, Mat.add, Mat.map2, Mat.onesLike,
      Mat.zerosLike, List.range_succ, List.replicate_succ]

/-- C5: for a variable node whose value is set, `reset()` is idempotent and
yields the zero tensor shaped like the value, and the `data` setter always
leaves the gradient as that zero tensor whatever the gradient held before. -/
theorem C5_reset_idempotent_setData_zeroes (v : NetVar) (m : Mat)
    (h : v.dta = some m) :
    v.reset.reset = v.reset ∧
    v.reset.g = some (Mat.zerosLike m) ∧
    (∀ d : Mat, (v.setData (some d)).g = some (Mat.zerosLike d)) := by
  refine ⟨?_, ?_, ?_⟩
  · simp [NetVar.reset, h]
  · simp [NetVar.reset, h]
  · intro d
    simp [NetVar.setData, NetVar.reset]

/-- Witness for C5 at a concrete node with value `[[5]]` and stale gradient `[[7]]`. -/
theorem C5_witness :
    (NetVar.mk (some [[5]]) (some [[7]])).dta = some [[5]] ∧
    ((NetVar.mk (some [[5]]) (some [[7]])).reset.reset
        = (NetVar.mk (some [[5]]) (some [[7]])).reset ∧
      (NetVar.mk (some [[5]]) (some [[7]])).reset.g = some (Mat.zerosLike [[5]]) ∧
      (∀ d : Mat, ((NetVar.mk (some [[5]]) (some [[7]])).setData (some d)).g
          = some (Mat.zerosLike d))) :=
  ⟨rfl, C5_reset_idempotent_setData_zeroes (NetVar.mk (some [[5]]) (some [[7]])) [[5]] rfl⟩

/-! ## Traversal lemmas (towards C1 and C8) -/

section TraversalLemmas

variable {M : Type} [AddCommMonoid M]

/-- Strong structural induction for `GNode` through its nested parent lists. -/
theorem GNode.indStrong {P : GNode M → Prop}
    (hv : ∀ i, P (.var i))
    (ho : ∀ i f ps, (∀ p ∈ ps, P p) → P (.op i f ps)) :
    ∀ t, P t := by
  have key : ∀ (n : ℕ) (t : GNode M), sizeOf t ≤ n → P t := by
    intro n
    induction n with
    | zero =>
      intro t ht
      cases t with
      | var i => simp at ht
      | op i f ps => simp at ht
    | succ n ih =>
      intro t ht
      cases t with
      | var i => exact hv i
      | op i f ps =>
        refine ho i f ps (fun p hp => ih p ?_)
        have h1 := List.sizeOf_lt_of_mem hp
        simp at ht
        omega
  exact fun t => key (sizeOf t) t le_rfl

theorem mem_opIdsL {j : ℕ} {ps : List (GNode M)} :
    j ∈ opIdsL ps ↔ ∃ p ∈ ps, j ∈ opIds p := by
  induction ps with
  | nil => simp [opIdsL]
  | cons p ps ih => simp [opIdsL, ih]

theorem mem_varIdsL {j : ℕ} {ps : List (GNode M)} :
    j ∈ varIdsL ps ↔ ∃ p ∈ ps, j ∈ varIds p := by
  induction ps with
  | nil => simp [varIdsL]
  | cons p ps ih => simp [varIdsL, ih]

theorem mem_parentIdsL {j : ℕ} {ps : List (GNode M)} :
    j ∈ parentIdsL ps ↔ ∃ p ∈ ps, j ∈ parentIds p := by
  induction ps with
  | nil => simp [parentIdsL]
  | cons p ps ih => simp [parentIdsL, ih]

/-- A node's own id is among its variable ids or its operator ids. -/
theorem nid_mem_varIds_or_opIds (q : GNode M) :
    q.nid ∈ varIds q ∨ q.nid ∈ opIds q := by
  cases q with
  | var i => left; simp [GNode.nid, varIds]
  | op i f ps => right; simp [GNode.nid, opIds]

/-- Every id in a parent position is a variable id or an operator id. -/
theorem parentIds_sub (t : GNode M) :
    ∀ j ∈ parentIds t, j ∈ varIds t ∨ j ∈ opIds t := by
  induction t using GNode.indStrong with
  | hv i => simp [parentIds]
  | ho i f ps ih =>
    intro j hj
    simp only [parentIds, List.mem_append] at hj
    simp only [varIds, opIds, List.mem_cons]
    rcases hj with hj | hj
    · obtain ⟨q, hq, hqe⟩ := List.mem_map.mp hj
      rcases nid_mem_varIds_or_opIds q with h | h
      · left; exact mem_varIdsL.mpr ⟨q, hq, hqe ▸ h⟩
      · right; right; exact mem_opIdsL.mpr ⟨q, hq, hqe ▸ h⟩
    · obtain ⟨q, hq, hqj⟩ := mem_parentIdsL.mp hj
      rcases ih q hq j hqj with h | h
      · left; exact mem_varIdsL.mpr ⟨q, hq, h⟩
      · right; right; exact mem_opIdsL.mpr ⟨q, hq, h⟩

/-- Pointwise effect of one `applyContribs` round. -/
theorem applyContribs_apply :
    ∀ (ps : List (GNode M)) (cs : List M) (s : ℕ → M) (j : ℕ),
      applyContribs ps cs s j = s j + dsum ps cs j := by
  intro ps
  induction ps with
  | nil => intro cs s j; cases cs <;> simp [applyContribs, dsum]
  | cons p ps ih =>
    intro cs s j
    cases cs with
    | nil => simp [applyContribs, dsum]
    | cons c cs =>
      simp only [applyContribs, dsum]
      rw [ih, Function.update_apply]
      by_cases h : j = p.nid
      · subst h; simp [add_assoc]
      · rw [if_neg h, if_neg (fun he => h he.symm), zero_add]

/-- Positions outside the parent ids receive no direct contribution. -/
theorem dsum_eq_zero :
    ∀ (ps : List (GNode M)) (cs : List M) (j : ℕ),
      j ∉ ps.map GNode.nid → dsum ps cs j = 0 := by
  intro ps
  induction ps with
  | nil => intro cs j _; cases cs <;> simp [dsum]
  | cons p ps ih =>
    intro cs j hj
    simp only [List.map_cons, List.mem_cons] at hj
    push_neg at hj
    cases cs with
    | nil => simp [dsum]
    | cons c cs =>
      simp only [dsum]
      rw [if_neg (fun he => hj.1 he.symm), ih cs j hj.2, zero_add]

/-- The spec contribution to an id never in a parent position is zero. -/
theorem specContrib_eq_zero (t : GNode M) :
    ∀ (g : M) (j : ℕ), j ∉ parentIds t → specContrib t g j = 0 := by
  induction t using GNode.indStrong with
  | hv i => intro g j _; simp [specContrib]
  | ho i f ps ih =>
    intro g j hj
    simp only [parentIds, List.mem_append] at hj
    push_neg at hj
    simp only [specContrib]
    have aux : ∀ (qs : List (GNode M)) (cs : List M),
        (∀ q ∈ qs, ∀ c, specContrib q c j = 0) →
        j ∉ qs.map GNode.nid → specContribL qs cs j = 0 := by
      intro qs
      induction qs with
      | nil => intro cs _ _; cases cs <;> simp [specContribL]
      | cons q qs ihq =>
        intro cs hq hmap
        simp only [List.map_cons, List.mem_cons] at hmap
        push_neg at hmap
        cases cs with
        | nil => simp [specContribL]
        | cons c cs =>
          simp only [specContribL]
          rw [if_neg (fun he => hmap.1 he.symm),
            hq q (List.mem_cons_self _ _) c, zero_add, zero_add,
            ihq cs (fun r hr c => hq r (List.mem_cons_of_mem _ hr) c) hmap.2]
    refine aux ps (f g) (fun q hq c => ih q hq c j ?_) hj.1
    exact fun hc => hj.2 (mem_parentIdsL.mpr ⟨q, hq, hc⟩)

theorem backList_visits_aux (ps : List (GNode M))
    (H : ∀ p ∈ ps, ∀ s, (backVisit p s).2 = opIds p) :
    ∀ s, (backList ps s).2 = opIdsL ps := by
  induction ps with
  | nil => intro s; simp [backList, opIdsL]
  | cons p ps ih =>
    intro s
    simp only [backList, opIdsL]
    rw [H p (List.mem_cons_self _ _),
      ih (fun q hq => H q (List.mem_cons_of_mem _ hq))]

/-- The traversal runs `_back` on exactly the operator nodes, in preorder. -/
theorem backVisit_visits (t : GNode M) : ∀ s, (backVisit t s).2 = opIds t := by
  induction t using GNode.indStrong with
  | hv i => intro s; simp [backVisit, opIds]
  | ho i f ps ih =>
    intro s
    simp only [backVisit, opIds]
    rw [backList_visits_aux ps ih]

theorem backList_frame_aux (ps : List (GNode M))
    (H : ∀ p ∈ ps, ∀ s j, j ∉ parentIds p → (backVisit p s).1 j = s j) :
    ∀ s j, j ∉ parentIdsL ps → (backList ps s).1 j = s j := by
  induction ps with
  | nil => intro s j _; simp [backList]
  | cons p ps ih =>
    intro s j hj
    simp only [parentIdsL, List.mem_append] at hj
    push_neg at hj
    simp only [backList]
    rw [ih (fun q hq => H q (List.mem_cons_of_mem _ hq)) _ j hj.2,
      H p (List.mem_cons_self _ _) s j hj.1]

/-- The traversal modifies only gradients of ids in parent positions. -/
theorem backVisit_frame (t : GNode M) :
    ∀ s j, j ∉ parentIds t → (backVisit t s).1 j = s j := by
  induction t using GNode.indStrong with
  | hv i => intro s j _; simp [backVisit]
  | ho i f ps ih =>
    intro s j hj
    simp only [parentIds, List.mem_append] at hj
    push_neg at hj
    simp only [backVisit]
    rw [backList_frame_aux ps ih _ j hj.2, applyContribs_apply,
      dsum_eq_zero ps _ j hj.1, add_zero]

end TraversalLemmas

section MainLemmas

variable {M : Type} [AddCommMonoid M]

/-- An operator's own id heads its operator-id list. -/
theorem nid_mem_opIds_of_isOp (q : GNode M) (h : q.isOp = true) :
    q.nid ∈ opIds q := by
  cases q with
  | var i => simp [GNode.isOp] at h
  | op i f ps => simp [GNode.nid, opIds]

/-- `rootSum` only reads the gradients of the roots that are operators. -/
theorem rootSum_congr :
    ∀ (ps : List (GNode M)) (s1 s2 : ℕ → M) (j : ℕ),
      (∀ q ∈ ps, q.isOp = true → s1 q.nid = s2 q.nid) →
      rootSum ps s1 j = rootSum ps s2 j := by
  intro ps
  induction ps with
  | nil => intro s1 s2 j _; simp [rootSum]
  | cons q ps ih =>
    intro s1 s2 j h
    simp only [rootSum, List.map_cons, List.sum_cons]
    have hhead : specContrib q (s1 q.nid) j = specContrib q (s2 q.nid) j := by
      cases q with
      | var i => simp [specContrib]
      | op i f qs => rw [h _ (List.mem_cons_self _ _) rfl]
    have htail := ih s1 s2 j (fun r hr hro => h r (List.mem_cons_of_mem _ hr) hro)
    simp only [rootSum] at htail
    rw [hhead, htail]

/-- Key accounting step: the direct contributions of one round plus the
recursive contributions of the sibling passes (each started from its own
delivered gradient) equal the specified contributions. -/
theorem dsum_add_rootSum :
    ∀ (ps : List (GNode M)) (cs : List M) (s : ℕ → M),
      cs.length = ps.length →
      (opIdsL ps).Nodup →
      (∀ a ∈ varIdsL ps, a ∉ opIdsL ps) →
      (∀ q ∈ ps, q.isOp = true → s q.nid = 0) →
      ∀ j, dsum ps cs j + rootSum ps (applyContribs ps cs s) j
        = specContribL ps cs j := by
  intro ps
  induction ps with
  | nil =>
    intro cs s hlen _ _ _ j
    have hc : cs = [] := List.length_eq_zero.mp (by simpa using hlen)
    subst hc
    simp [dsum, rootSum, specContribL, applyContribs]
  | cons p ps ih =>
    intro cs s hlen hnd hdisj hz j
    cases cs with
    | nil => simp at hlen
    | cons c cs =>
      have hnd' : (opIds p ++ opIdsL ps).Nodup := by simpa [opIdsL] using hnd
      obtain ⟨hndp, hndl, hdisjpl⟩ := List.nodup_append.mp hnd'
      have hdisjt : ∀ a ∈ varIdsL ps, a ∉ opIdsL ps := by
        intro a ha hb
        exact hdisj a (by simp only [varIdsL, List.mem_append]; exact Or.inr ha)
          (by simp only [opIdsL, List.mem_append]; exact Or.inr hb)
      have hpnotin : p.isOp = true → p.nid ∉ ps.map GNode.nid := by
        intro hop hmem
        obtain ⟨q, hq, hqe⟩ := List.mem_map.mp hmem
        have hpop : p.nid ∈ opIds p := nid_mem_opIds_of_isOp p hop
        rcases nid_mem_varIds_or_opIds q with h | h
        · exact hdisj p.nid
            (by simp only [varIdsL, List.mem_append]
                exact Or.inr (mem_varIdsL.mpr ⟨q, hq, hqe ▸ h⟩))
            (by simp only [opIdsL, List.mem_append]; exact Or.inl hpop)
        · exact hdisjpl hpop (mem_opIdsL.mpr ⟨q, hq, hqe ▸ h⟩)
      have hstep : applyContribs (p :: ps) (c :: cs) s
          = applyContribs ps cs (Function.update s p.nid (s p.nid + c)) := by
        simp [applyContribs]
      have hz' : ∀ q ∈ ps, q.isOp = true →
          Function.update s p.nid (s p.nid + c) q.nid = 0 := by
        intro q hq hop
        have hqop : q.nid ∈ opIds q := nid_mem_opIds_of_isOp q hop
        have hqne : q.nid ≠ p.nid := by
          intro he
          rcases nid_mem_varIds_or_opIds p with hv | ho
          · exact hdisj p.nid
              (by simp only [varIdsL, List.mem_append]; exact Or.inl hv)
              (by simp only [opIdsL, List.mem_append]
                  exact Or.inr (mem_opIdsL.mpr ⟨q, hq, he ▸ hqop⟩))
          · exact hdisjpl ho (mem_opIdsL.mpr ⟨q, hq, he ▸ hqop⟩)
        rw [Function.update_noteq hqne]
        exact hz q (List.mem_cons_of_mem _ hq) hop
      have hroot : p.isOp = true →
          applyContribs ps cs (Function.update s p.nid (s p.nid + c)) p.nid = c := by
        intro hop
        rw [applyContribs_apply, dsum_eq_zero ps cs _ (hpnotin hop), add_zero,
          Function.update_same, hz p (List.mem_cons_self _ _) hop, zero_add]
      have hhead : specContrib p
          ((applyContribs ps cs (Function.update s p.nid (s p.nid + c))) p.nid) j
          = specContrib p c j := by
        cases p with
        | var i => simp [specContrib]
        | op i f qs => rw [hroot rfl]
      have hih := ih cs (Function.update s p.nid (s p.nid + c))
        (by simpa using hlen) hndl hdisjt hz' j
      have hcons1 : dsum (p :: ps) (c :: cs) j
          = (if p.nid = j then c else 0) + dsum ps cs j := by simp [dsum]
      have hcons2 : rootSum (p :: ps)
            (applyContribs ps cs (Function.update s p.nid (s p.nid + c))) j
          = specContrib p
              ((applyContribs ps cs (Function.update s p.nid (s p.nid + c))) p.nid) j
            + rootSum ps (applyContribs ps cs (Function.update s p.nid (s p.nid + c))) j := by
        simp [rootSum]
      have hcons3 : specContribL (p :: ps) (c :: cs) j
          = ((if p.nid = j then c else 0) + specContrib p c j)
            + specContribL ps cs j := by simp [specContribL]
      rw [hstep, hcons1, hcons2, hhead, hcons3, ← hih]
      abel

/-- Main list lemma: after the caller applied the direct contributions, the
recursive sibling passes add exactly the specified contributions of each
subtree, fed by the gradient its root currently holds. -/
theorem backList_main_aux :
    ∀ (ps : List (GNode M)),
      (∀ p ∈ ps, ArityOk p → (opIds p).Nodup →
        (∀ a ∈ varIds p, a ∉ opIds p) →
        ∀ s' : ℕ → M, (∀ a ∈ opIds p, a ≠ p.nid → s' a = 0) →
        ∀ j, (backVisit p s').1 j = s' j + specContrib p (s' p.nid) j) →
      ArityOkL ps → (opIdsL ps).Nodup →
      (∀ a ∈ varIdsL ps, a ∉ opIdsL ps) →
      ∀ s : ℕ → M, (∀ a ∈ opIdsL ps, a ∈ ps.map GNode.nid ∨ s a = 0) →
      ∀ j, (backList ps s).1 j = s j + rootSum ps s j := by
  intro ps
  induction ps with
  | nil => intro _ _ _ _ s _ j; simp [backList, rootSum]
  | cons p ps ih =>
    intro HIH hal hnd hdisj s hz j
    obtain ⟨hap, hapl⟩ : ArityOk p ∧ ArityOkL ps := by simpa [ArityOkL] using hal
    have hnd' : (opIds p ++ opIdsL ps).Nodup := by simpa [opIdsL] using hnd
    obtain ⟨hndp, hndl, hdisjpl⟩ := List.nodup_append.mp hnd'
    have hdisjt : ∀ a ∈ varIdsL ps, a ∉ opIdsL ps := by
      intro a ha hb
      exact hdisj a (by simp only [varIdsL, List.mem_append]; exact Or.inr ha)
        (by simp only [opIdsL, List.mem_append]; exact Or.inr hb)
    have hdisjp : ∀ a ∈ varIds p, a ∉ opIds p := by
      intro a ha hb
      exact hdisj a (by simp only [varIdsL, List.mem_append]; exact Or.inl ha)
        (by simp only [opIdsL, List.mem_append]; exact Or.inl hb)
    have hzp : ∀ a ∈ opIds p, a ≠ p.nid → s a = 0 := by
      intro a ha hne
      rcases hz a (by simp only [opIdsL, List.mem_append]; exact Or.inl ha) with hm | h0
      · exfalso
        simp only [List.map_cons, List.mem_cons] at hm
        rcases hm with hm | hm
        · exact hne hm
        · obtain ⟨q, hq, hqe⟩ := List.mem_map.mp hm
          rcases nid_mem_varIds_or_opIds q with hv | ho
          · exact hdisj a
              (by simp only [varIdsL, List.mem_append]
                  exact Or.inr (mem_varIdsL.mpr ⟨q, hq, hqe ▸ hv⟩))
              (by simp only [opIdsL, List.mem_append]; exact Or.inl ha)
          · exact hdisjpl ha (mem_opIdsL.mpr ⟨q, hq, hqe ▸ ho⟩)
      · exact h0
    have Hp := HIH p (List.mem_cons_self _ _) hap hndp hdisjp s hzp
    have hframe : ∀ a, a ∈ opIdsL ps → (backVisit p s).1 a = s a := by
      intro a ha
      apply backVisit_frame
      intro hpar
      rcases parentIds_sub p a hpar with hv | ho
      · exact hdisj a (by simp only [varIdsL, List.mem_append]; exact Or.inl hv)
          (by simp only [opIdsL, List.mem_append]; exact Or.inr ha)
      · exact hdisjpl ho ha
    have hz2 : ∀ a ∈ opIdsL ps, a ∈ ps.map GNode.nid ∨ (backVisit p s).1 a = 0 := by
      intro a ha
      rcases hz a (by simp only [opIdsL, List.mem_append]; exact Or.inr ha) with hm | h0
      · simp only [List.map_cons, List.mem_cons] at hm
        rcases hm with hm | hm
        · exfalso
          rcases nid_mem_varIds_or_opIds p with hv | ho
          · exact hdisj a
              (by simp only [varIdsL, List.mem_append]; exact Or.inl (hm ▸ hv))
              (by simp only [opIdsL, List.mem_append]; exact Or.inr ha)
          · exact hdisjpl (hm ▸ ho) ha
        · exact Or.inl hm
      · right; rw [hframe a ha]; exact h0
    have Htail := ih (fun q hq => HIH q (List.mem_cons_of_mem _ hq)) hapl hndl
      hdisjt ((backVisit p s).1) hz2
    have hcong : rootSum ps ((backVisit p s).1) j = rootSum ps s j := by
      apply rootSum_congr
      intro q hq hop
      exact hframe q.nid (mem_opIdsL.mpr ⟨q, hq, nid_mem_opIds_of_isOp q hop⟩)
    have hcons : rootSum (p :: ps) s j
        = specContrib p (s p.nid) j + rootSum ps s j := by simp [rootSum]
    simp only [backList]
    rw [Htail j, hcong, Hp j, hcons]
    abel

/-- Main correctness of the traversal on well-formed trees: each node's
final gradient is its starting gradient plus the specified contribution of
the pass (with the terminal's gradient read as the upstream seed). -/
theorem backVisit_main (t : GNode M) :
    ArityOk t → (opIds t).Nodup →
      (∀ a ∈ varIds t, a ∉ opIds t) →
      ∀ s : ℕ → M, (∀ a ∈ opIds t, a ≠ t.nid → s a = 0) →
      ∀ j, (backVisit t s).1 j = s j + specContrib t (s t.nid) j := by
  induction t using GNode.indStrong with
  | hv i => intro _ _ _ s _ j; simp [backVisit, specContrib]
  | ho i f ps IH =>
    intro harity hnd hdisj s hz j
    obtain ⟨hflen, hal⟩ : (∀ g, (f g).length = ps.length) ∧ ArityOkL ps := by
      simpa [ArityOk] using harity
    have hnd' : i ∉ opIdsL ps ∧ (opIdsL ps).Nodup := by
      simpa [opIds, List.nodup_cons] using hnd
    have hdisjL : ∀ a ∈ varIdsL ps, a ∉ opIdsL ps := by
      intro a ha hb
      exact hdisj a (by simpa [varIds] using ha)
        (by simp only [opIds, List.mem_cons]; exact Or.inr hb)
    have hz1 : ∀ a ∈ opIdsL ps,
        a ∈ ps.map GNode.nid ∨ applyContribs ps (f (s i)) s a = 0 := by
      intro a ha
      by_cases hm : a ∈ ps.map GNode.nid
      · exact Or.inl hm
      · right
        rw [applyContribs_apply, dsum_eq_zero ps _ a hm, add_zero]
        refine hz a (by simp only [opIds, List.mem_cons]; exact Or.inr ha) ?_
        intro he
        exact hnd'.1 (by rw [show (GNode.op i f ps).nid = i from rfl] at he; exact he ▸ ha)
    have HL := backList_main_aux ps IH hal hnd'.2 hdisjL
      (applyContribs ps (f (s i)) s) hz1
    have hzroots : ∀ q ∈ ps, q.isOp = true → s q.nid = 0 := by
      intro q hq hop
      refine hz q.nid
        (by simp only [opIds, List.mem_cons]
            exact Or.inr (mem_opIdsL.mpr ⟨q, hq, nid_mem_opIds_of_isOp q hop⟩)) ?_
      intro he
      refine hnd'.1 ?_
      rw [show (GNode.op i f ps).nid = i from rfl] at he
      exact he ▸ mem_opIdsL.mpr ⟨q, hq, nid_mem_opIds_of_isOp q hop⟩
    have HD := dsum_add_rootSum ps (f (s i)) s (hflen (s i)) hnd'.2 hdisjL hzroots j
    have hspec : specContrib (GNode.op i f ps) (s (GNode.op i f ps).nid) j
        = specContribL ps (f (s i)) j := by
      simp [specContrib, GNode.nid]
    simp only [backVisit]
    rw [HL j, applyContribs_apply, hspec, ← HD]
    abel

end MainLemmas

/-! ## Claims C1, C3, C6, C7, C8, C9, C10 -/

/-- C1 (amended): on a graph in which no OPERATOR node is shared (each
operator id occurs exactly once; object identities of variable leaves and
operators are distinct), one `back()` call runs each operator's local
backward exactly once, and — with all gradients reset before the pass —
every node's final gradient is the seeded state plus `specContrib`, the sum
of the locally computed contributions delivered into it (so a variable
leaf parent to two operators ends with exactly the sum of the two
independently computed local contributions). -/
theorem C1_amended_backprop {M : Type} [AddCommMonoid M] (t : GNode M)
    (one : M) (s : ℕ → M)
    (harity : ArityOk t) (hnd : (opIds t).Nodup)
    (hdisj : ∀ a ∈ varIds t, a ∉ opIds t)
    (hz : ∀ a ∈ opIds t, a ≠ t.nid → s a = 0) :
    (∀ i ∈ opIds t, ((backOp t one s).2).count i = 1) ∧
    (∀ j, (backOp t one s).1 j
        = Function.update s t.nid one j + specContrib t one j) := by
  constructor
  · intro i hi
    have hv : (backOp t one s).2 = opIds t := backVisit_visits t _
    rw [hv]
    exact List.count_eq_one_of_mem hnd hi
  · intro j
    have hz' : ∀ a ∈ opIds t, a ≠ t.nid → Function.update s t.nid one a = 0 := by
      intro a ha hne
      rw [Function.update_noteq hne]
      exact hz a ha hne
    have hmain := backVisit_main t harity hnd hdisj
      (Function.update s t.nid one) hz' j
    rw [Function.update_same] at hmain
    simpa [backOp] using hmain

/-- C1 counterexample: in `Add(A, A)` with the operator node `A = ReLU(x)`
shared, one `back()` call runs `A`'s local backward TWICE (not exactly
once), and the leaf's gradient ends at `4`, double the mathematically
correct `2` — the claim fails for graphs sharing an operator node. -/
theorem C1_counterexample :
    ((backOp addShared (1 : ℚ) (fun _ => 0)).2).count 1 = 2 ∧
    (backOp addShared (1 : ℚ) (fun _ => 0)).1 0 = 4 := by
  constructor
  · simp [backOp, backVisit, backList, applyContribs, addShared, reluNode,
      GNode.nid, Function.update]
  · simp [backOp, backVisit, backList, applyContribs, addShared, reluNode,
      GNode.nid, Function.update]
    norm_num

/-- Witness for C1 at the graph `Add(ReLU(x), x)` with zeroed gradients. -/
theorem C1_amended_backprop_witness :
    (∀ i ∈ opIds twoConsumers,
      ((backOp twoConsumers (1 : ℚ) (fun _ => 0)).2).count i = 1) ∧
    (∀ j, (backOp twoConsumers (1 : ℚ) (fun _ => 0)).1 j
        = Function.update (fun _ => (0 : ℚ)) twoConsumers.nid 1 j
          + specContrib twoConsumers 1 j) :=
  C1_amended_backprop twoConsumers 1 (fun _ => 0)
    (by simp [ArityOk, ArityOkL, twoConsumers, reluNode])
    (by simp [opIds, opIdsL, twoConsumers, reluNode])
    (by simp [varIds, varIdsL, opIds, opIdsL, twoConsumers, reluNode])
    (fun _ _ _ => rfl)

/-- C3 (amended): for `L1Loss`, `L2Loss` and `CELoss` the batch size used
by the backward step is the target's row count captured at construction
(the cache): the backward output is unchanged if the construction-time
target is replaced by any tensor with the same number of rows.
`HuberLoss` instead recomputes the batch size from the target's CURRENT
value at backward time: its backward output depends on the backward-time
target exactly through its row count. -/
theorem C3_amended_batch_size (p t0 t0' pC tC : Mat) (g : ℚ)
    (c : Mat × Mat × ℚ) (t1 t2 : Mat)
    (hb : t0.length = t0'.length) (h12 : t1.length = t2.length) :
    (L1Loss.back (L1Loss.cacheOf p t0) pC tC g
      = L1Loss.back (L1Loss.cacheOf p t0') pC tC g) ∧
    (L2Loss.back (L2Loss.cacheOf p t0) pC tC g
      = L2Loss.back (L2Loss.cacheOf p t0') pC tC g) ∧
    (CELoss.backP (CELoss.cacheOf p t0) pC tC g
      = CELoss.backP (CELoss.cacheOf p t0') pC tC g) ∧
    (HuberLoss.back c t1 = HuberLoss.back c t2) := by
  refine ⟨?_, ?_, ?_, ?_⟩
  · simp [L1Loss.cacheOf, hb]
  · simp [L2Loss.cacheOf, hb]
  · simp [CELoss.cacheOf, hb]
  · simp [HuberLoss.back, h12]

/-- C3 counterexample: a `HuberLoss` node built with `p = [[2]]`,
`t = [[0]]`, `d = 1` (batch size 1); reassigning the target's value to
`[[0],[0]]` (two rows) before the backward step halves the produced
gradient `dx` (`[[1/2]]` instead of `[[1]]`), so the gradients are NOT
left unchanged. -/
theorem C3_counterexample :
    HuberLoss.back (HuberLoss.cacheOf [[2]] [[0]] 1) [[0], [0]]
      ≠ HuberLoss.back (HuberLoss.cacheOf [[2]] [[0]] 1) [[0]] := by
  norm_num [HuberLoss.back, HuberLoss.cacheOf, Mat.emap, Mat.map2, Mat.sub, sgn]

/-- Witness for C3 at concrete tensors. -/
theorem C3_amended_batch_size_witness :
    (L1Loss.back (L1Loss.cacheOf [[2]] [[0]]) [[2]] [[0]] 1
      = L1Loss.back (L1Loss.cacheOf [[2]] [[7]]) [[2]] [[0]] 1) ∧
    (L2Loss.back (L2Loss.cacheOf [[2]] [[0]]) [[2]] [[0]] 1
      = L2Loss.back (L2Loss.cacheOf [[2]] [[7]]) [[2]] [[0]] 1) ∧
    (CELoss.backP (CELoss.cacheOf [[2]] [[0]]) [[2]] [[0]] 1
      = CELoss.backP (CELoss.cacheOf [[2]] [[7]]) [[2]] [[0]] 1) ∧
    (HuberLoss.back (HuberLoss.cacheOf [[2]] [[0]] 1) [[0]]
      = HuberLoss.back (HuberLoss.cacheOf [[2]] [[0]] 1) [[5]]) :=
  C3_amended_batch_size [[2]] [[0]] [[7]] [[2]] [[0]] 1
    (HuberLoss.cacheOf [[2]] [[0]] 1) [[0]] [[5]] rfl rfl

/-- C6: constructing `BatchNorm` with `useAvg` false sets the running-mean
node's value to `0.9·old + 0.1·batchMean` and the running-variance node's
value to `0.9·old + 0.1·batchVar` (the mean over rows of the squared
batch-centered input); with `useAvg` true both running-statistics values
are left unchanged. -/
theorem C6_batchnorm_running_stats (sqrtF : ℚ → ℚ)
    (x gamma beta avgVar avgMean : Mat) :
    ((BatchNorm.construct sqrtF x gamma beta avgVar avgMean false).newAvgMean
        = Mat.add (Mat.smul (9/10) avgMean) (Mat.smul (1/10) [Mat.meanAxis0 x]) ∧
      (BatchNorm.construct sqrtF x gamma beta avgVar avgMean false).newAvgVar
        = Mat.add (Mat.smul (9/10) avgVar)
            (Mat.smul (1/10) [Mat.meanAxis0 (Mat.emap (fun v => v ^ 2)
              (x.map (fun row => List.zipWith (· - ·) row (Mat.meanAxis0 x))))])) ∧
    ((BatchNorm.construct sqrtF x gamma beta avgVar avgMean true).newAvgMean
        = avgMean ∧
      (BatchNorm.construct sqrtF x gamma beta avgVar avgMean true).newAvgVar
        = avgVar) := by
  refine ⟨⟨?_, ?_⟩, ?_, ?_⟩ <;> simp [BatchNorm.construct, BatchNorm.runningUpdate]

/-- C7 counterexample: under the claim's own hypotheses — finite upstream
gradient (`g = 2`), non-negative prediction entries (`p = [[0]]`), nonzero
batch size (`1`) — the float32 product `g * -np.nan_to_num(np.log 0)
= 2 * maxFloat` overflows to `+inf`: the contribution added into the
target's gradient is NOT finite. -/
theorem C7_counterexample :
    CELoss.backT (fun q => if q ≤ 0 then FloatV.negInf else FloatV.fin 0) 1 [[0]]
        (FloatV.fin 2) = [[FloatV.posInf]] ∧
    FloatV.isFin FloatV.posInf = false := by
  constructor
  · norm_num [CELoss.backT, FloatV.nanToNum, FloatV.neg, FloatV.mul, FloatV.div,
      FloatV.maxFloat, FloatV.ovfThreshold, abs_of_nonneg]
  · rfl

/-- C7 (amended): for a `CELoss` node whose upstream gradient `g` is finite
with `|g| ≤ 1` (in particular the all-ones seed of `back()`), whose cached
batch size is nonzero, whose log values are float32 values (magnitude at
most `maxFloat`), and whose prediction has non-negative entries (zeros
included), every entry of the backward contribution added into the
target's gradient is finite: `np.nan_to_num` replaces the `-inf` of
`log 0` by the largest-magnitude finite float before it is used, and the
subsequent scaling by `g` and division by the batch size cannot overflow.
For larger finite `g` (e.g. `2`) the product overflows to infinity. -/
theorem C7_amended_celoss_tgrad_finite (L : ℚ → FloatV) (c : ℕ) (p : Mat)
    (gq : ℚ) (hc : c ≠ 0) (hg : |gq| ≤ 1)
    (hL : ∀ x q, L x = FloatV.fin q → |q| ≤ FloatV.maxFloat)
    (hp : ∀ r ∈ p, ∀ v ∈ r, 0 ≤ v) :
    (∀ r ∈ CELoss.backT L c p (FloatV.fin gq), ∀ v ∈ r, v.isFin = true) ∧
    FloatV.nanToNum FloatV.negInf = -FloatV.maxFloat := by
  refine ⟨?_, rfl⟩
  intro r hr v hv
  simp only [CELoss.backT, List.mem_map] at hr
  obtain ⟨row, _, hre⟩ := hr
  subst hre
  simp only [List.mem_map] at hv
  obtain ⟨pv, _, hve⟩ := hv
  subst hve
  have hmaxpos : (0 : ℚ) ≤ FloatV.maxFloat := by norm_num [FloatV.maxFloat]
  have hthr : FloatV.maxFloat < FloatV.ovfThreshold := by
    norm_num [FloatV.maxFloat, FloatV.ovfThreshold]
  have ha : |FloatV.nanToNum (L pv)| ≤ FloatV.maxFloat := by
    cases hLv : L pv with
    | fin q => simpa [FloatV.nanToNum] using hL pv q hLv
    | posInf => simp [FloatV.nanToNum, abs_of_nonneg hmaxpos]
    | negInf => simp [FloatV.nanToNum, abs_neg, abs_of_nonneg hmaxpos]
    | nanV => simpa [FloatV.nanToNum] using hmaxpos
  have hm : |gq * -(FloatV.nanToNum (L pv))| ≤ FloatV.maxFloat := by
    rw [abs_mul, abs_neg]
    calc |gq| * |FloatV.nanToNum (L pv)| ≤ 1 * FloatV.maxFloat :=
          mul_le_mul hg ha (abs_nonneg _) (by norm_num)
      _ = FloatV.maxFloat := one_mul _
  have hmul : FloatV.mul (FloatV.fin gq)
      (FloatV.neg (FloatV.fin (FloatV.nanToNum (L pv))))
      = FloatV.fin (gq * -(FloatV.nanToNum (L pv))) := by
    simp only [FloatV.neg, FloatV.mul]
    rw [if_neg (not_le.mpr (lt_of_le_of_lt hm hthr))]
  have hc1 : (1 : ℚ) ≤ (c : ℚ) := by exact_mod_cast Nat.one_le_iff_ne_zero.mpr hc
  have hcne : (c : ℚ) ≠ 0 := ne_of_gt (lt_of_lt_of_le one_pos hc1)
  have hd : |gq * -(FloatV.nanToNum (L pv)) / (c : ℚ)| ≤ FloatV.maxFloat := by
    have hcabs : |(c : ℚ)| = (c : ℚ) := abs_of_nonneg (Nat.cast_nonneg c)
    rw [abs_div, hcabs]
    calc |gq * -(FloatV.nanToNum (L pv))| / (c : ℚ)
        ≤ |gq * -(FloatV.nanToNum (L pv))| := div_le_self (abs_nonneg _) hc1
      _ ≤ FloatV.maxFloat := hm
  rw [hmul]
  simp only [FloatV.div]
  rw [if_neg hcne, if_neg (not_le.mpr (lt_of_le_of_lt hd hthr))]
  rfl

/-- Witness for the amended C7 with the seed gradient `1` and a log
stand-in that is `-inf` at `0` and bounded elsewhere. -/
theorem C7_amended_celoss_tgrad_finite_witness :
    (∀ r ∈ CELoss.backT (fun q => if q ≤ 0 then FloatV.negInf else FloatV.fin 0)
        1 [[0]] (FloatV.fin 1), ∀ v ∈ r, v.isFin = true) ∧
    FloatV.nanToNum FloatV.negInf = -FloatV.maxFloat :=
  C7_amended_celoss_tgrad_finite
    (fun q => if q ≤ 0 then FloatV.negInf else FloatV.fin 0) 1 [[0]] 1
    (by decide) (by norm_num)
    (by
      intro x q h
      by_cases hx : x ≤ 0
      · simp [hx] at h
      · simp only [hx, if_false] at h
        obtain rfl : (0 : ℚ) = q := FloatV.fin.inj h
        norm_num [FloatV.maxFloat])
    (by norm_num)

/-- C8: `FFN.reset()` — and hence `FFN.back()` with `reset` left `True` —
fails with `AttributeError` on the lookup of `self.params` (never defined
by any `FFN` method), before any gradient is touched; `FFN.back(reset=False)`
after a forward pass (nonempty `layers`) performs the backward pass on the
last layer without this error. -/
theorem C8_ffn_reset_attribute_error {M : Type} [AddCommMonoid M] (one : M)
    (layers : List (GNode M)) (s : ℕ → M) (h : layers ≠ []) :
    FFN.resetRun s = .error "AttributeError: params" ∧
    FFN.backRun one true layers s = .error "AttributeError: params" ∧
    ∃ t, layers.getLast? = some t ∧
      FFN.backRun one false layers s = .ok (backOp t one s) := by
  have hlook : FFN.lookupAttr "params" = none := by decide
  refine ⟨?_, ?_, ?_⟩
  · simp [FFN.resetRun, hlook]
  · simp [FFN.backRun, FFN.resetRun, hlook, Except.bind]
  · obtain ⟨t, ht⟩ : ∃ t, layers.getLast? = some t := by
      cases hl : layers.getLast? with
      | none => exact absurd (List.getLast?_eq_none_iff.mp hl) h
      | some t => exact ⟨t, rfl⟩
    exact ⟨t, ht, by simp [FFN.backRun, ht]⟩

/-- Witness for C8 with a one-layer network. -/
theorem C8_ffn_reset_attribute_error_witness :
    FFN.resetRun (M := ℚ) (fun _ => 0) = .error "AttributeError: params" ∧
    FFN.backRun (1 : ℚ) true [GNode.var 0] (fun _ => 0)
      = .error "AttributeError: params" ∧
    ∃ t, ([GNode.var 0] : List (GNode ℚ)).getLast? = some t ∧
      FFN.backRun (1 : ℚ) false [GNode.var 0] (fun _ => 0)
        = .ok (backOp t 1 (fun _ => 0)) :=
  C8_ffn_reset_attribute_error 1 [GNode.var 0] (fun _ => 0) (by simp)

/-- C9 (amended): for identical parameter values, gradients, learn rate,
momentum (and RMS decay) and optimizer state, the `optimization.py` and
`training.py` variants of `GD.step` (and of `Adam.step`) produce IDENTICAL
results — the same updated parameter values, the same momentum and
squared-gradient buffers, and the same final gradient, namely zero: the
in-place `p.data -= ...` already invokes the `data` property setter, which
resets the gradient, so `training.py`'s extra explicit `reset()` makes no
observable difference. -/
theorem C9_amended_optimizer_equal (sqrtF : ℚ → ℚ) (lr mom rms : ℚ)
    (pd pg m r : Mat) :
    Optimization.GD.stepOne lr mom pd pg m = Training.GD.stepOne lr mom pd pg m ∧
    Optimization.Adam.stepOne sqrtF lr mom rms pd pg m r
      = Training.Adam.stepOne sqrtF lr mom rms pd pg m r ∧
    ((Optimization.GD.stepOne lr mom pd pg m).1).g
      = some (Mat.zerosLike (Mat.sub pd
          (Mat.smul lr (Mat.add (Mat.smul mom m) (Mat.smul (1 - mom) pg))))) := by
  refine ⟨?_, ?_, ?_⟩
  · simp [Optimization.GD.stepOne, Training.GD.stepOne, NetVar.setData, NetVar.reset]
  · simp [Optimization.Adam.stepOne, Training.Adam.stepOne, NetVar.setData,
      NetVar.reset]
  · simp [Optimization.GD.stepOne, NetVar.setData, NetVar.reset]

/-- C9 counterexample: with `p.data = [[1]]`, `p.g = [[1]]`, `m = [[0]]`,
learn rate `1/10` and momentum `9/10`, the `optimization.py` `GD.step`
leaves the gradient at `[[0]]`, not unchanged at `[[1]]`: the in-place
`p.data -= ...` fires the `data` setter, which resets the gradient. -/
theorem C9_counterexample :
    ((Optimization.GD.stepOne (1/10) (9/10) [[1]] [[1]] [[0]]).1).g ≠ some [[1]] ∧
    ((Optimization.GD.stepOne (1/10) (9/10) [[1]] [[1]] [[0]]).1).g = some [[0]] := by
  constructor
  · norm_num [Optimization.GD.stepOne, NetVar.setData, NetVar.reset,
      Mat.add, Mat.smul, Mat.sub, Mat.map2, Mat.emap, Mat.zerosLike]
  · norm_num [Optimization.GD.stepOne, NetVar.setData, NetVar.reset,
      Mat.add, Mat.smul, Mat.sub, Mat.map2, Mat.emap, Mat.zerosLike]

/-- C10: constructing any operator of the library leaves every parent node
(value and gradient) unchanged, provided the new node's id is fresh and —
for `BatchNorm` — the running-statistics nodes (which ARE mutated) are not
among the parents. -/
theorem C10_construct_frame (expF logF sqrtF : ℚ → ℚ) (c : OpCtor)
    (st : ℕ → NetVar) (newId : ℕ)
    (h1 : newId ∉ c.parentsOf) (h2 : ∀ i ∈ c.mutatedOf, i ∉ c.parentsOf) :
    ∀ j ∈ c.parentsOf, OpCtor.construct expF logF sqrtF c st newId j = st j := by
  intro j hj
  have hjne : j ≠ newId := fun he => h1 (he ▸ hj)
  cases c
  case batchNorm x gamma beta avgVar avgMean useAvg =>
    by_cases hu : useAvg = true
    · simp [OpCtor.construct, hu, Function.update_noteq hjne]
    · have hu' : useAvg = false := by
        cases useAvg
        · rfl
        · exact absurd rfl hu
      have hjav : j ≠ avgVar := fun he =>
        h2 avgVar (by simp [OpCtor.mutatedOf, hu']) (he ▸ hj)
      have hjam : j ≠ avgMean := fun he =>
        h2 avgMean (by simp [OpCtor.mutatedOf, hu']) (he ▸ hj)
      simp [OpCtor.construct, hu', Function.update_noteq hjne,
        Function.update_noteq hjav, Function.update_noteq hjam]
  all_goals simp [OpCtor.construct, Function.update_noteq hjne]

/-- Witness for C10: a `BatchNorm` construction over parents 0,1,2 with
running-statistics nodes 3,4 and fresh id 5 leaves parent 0 unchanged. -/
theorem C10_construct_frame_witness :
    OpCtor.construct id id id (OpCtor.batchNorm 0 1 2 3 4 false)
      (fun _ => NetVar.mk (some [[1]]) (some [[0]])) 5 0
      = (fun _ => NetVar.mk (some [[1]]) (some [[0]])) 0 :=
  C10_construct_frame id id id (OpCtor.batchNorm 0 1 2 3 4 false)
    (fun _ => NetVar.mk (some [[1]]) (some [[0]])) 5
    (by decide) (by decide) 0 (by decide)
